import Mathlib

/-!
Verification of the SNIL editor core against its implementation:
the script-to-graph builder and section splitter of
src/views/graph/script_graph.py and the fold-range computation and
autocomplete insertion of src/views/code_editor.py, shallowly embedded
over lists of characters and strings.
-/

namespace SNEngine

/-- Embedding of Python str.strip on a character list (ASCII whitespace). -/
def trimChars (cs : List Char) : List Char :=
  ((cs.dropWhile Char.isWhitespace).reverse.dropWhile Char.isWhitespace).reverse

/-- Embedding of Python str.strip. -/
def strip (s : String) : String := String.mk (trimChars s.data)

/-- Lower-cased character data of a string (Python str.lower on ASCII). -/
def lowerData (s : String) : List Char := s.data.map Char.toLower

/-- Case-insensitive comparison of a string with a lower-case literal. -/
def lowerEq (s : String) (lit : String) : Bool := lowerData s == lit.data

/-- Consume the leading whitespace run (regex \s* at the start). -/
def dropWs (cs : List Char) : List Char := cs.dropWhile Char.isWhitespace

/-- Match a lower-case literal at the front, case-insensitively, returning
the rest on success. -/
def stripLitCI : List Char → List Char → Option (List Char)
  | [], cs => some cs
  | _ :: _, [] => none
  | p :: ps, c :: cs => if c.toLower == p then stripLitCI ps cs else none

/-- Matches the configured pattern "^START" (re.match, IGNORECASE). -/
def matchStartPat (l : String) : Bool := (stripLitCI "start".data l.data).isSome

/-- Matches the configured pattern "^END" (re.match, IGNORECASE). -/
def matchEndPat (l : String) : Bool := (stripLitCI "end".data l.data).isSome

/-- Matches a pattern of shape optional-whitespace, keyword,
one-or-more whitespace (re.match, IGNORECASE), used for the function,
function_call, wait and show rules. -/
def matchKwWs (kw : String) (l : String) : Bool :=
  match stripLitCI kw.data (dropWs l.data) with
  | some (c :: _) => c.isWhitespace
  | _ => false

/-- Matches the configured jump rule: whitespace-separated "jump" then "to"
followed by whitespace (re.match, IGNORECASE). -/
def matchJumpPat (l : String) : Bool :=
  match stripLitCI "jump".data (dropWs l.data) with
  | some (c :: rest) =>
    c.isWhitespace &&
      (match stripLitCI "to".data (dropWs rest) with
       | some (c2 :: _) => c2.isWhitespace
       | _ => false)
  | _ => false

/-- Matches the conditional pattern: optional whitespace, "if", one
whitespace, anything (re.match, IGNORECASE). -/
def matchIfPat (l : String) : Bool := matchKwWs "if" l

/-- Matches the ignore pattern for name headers: optional whitespace,
"name", optional whitespace, a colon (re.match, IGNORECASE). -/
def matchNamePat (l : String) : Bool :=
  match stripLitCI "name".data (dropWs l.data) with
  | some rest =>
    match dropWs rest with
    | ':' :: _ => true
    | _ => false
  | none => false

/-- Matches the blank-line ignore pattern: only whitespace. -/
def matchBlankPat (l : String) : Bool := l.data.all Char.isWhitespace

/-- Substring containment on character lists (Python `in` on str). -/
def containsSeq (needle : List Char) : List Char → Bool
  | [] => needle.isEmpty
  | c :: rest => needle.isPrefixOf (c :: rest) || containsSeq needle rest

/-- Trigger of a conditional run in parse_script_content: the if pattern
matches, or the literal marker "If Show Variant" occurs (case-sensitive). -/
def isCondTrigger (s : String) : Bool :=
  matchIfPat s || containsSeq "If Show Variant".data s.data

/-- Decimal digit characters, for rendering node-id counters. -/
def digitChar : Nat → Char
  | 0 => '0' | 1 => '1' | 2 => '2' | 3 => '3' | 4 => '4'
  | 5 => '5' | 6 => '6' | 7 => '7' | 8 => '8' | _ => '9'

/-- Fuel-driven decimal rendering; fuel at least n + 1 always suffices. -/
def natDigitsAux : Nat → Nat → List Char → List Char
  | 0, _, acc => acc
  | fuel + 1, n, acc =>
    if n < 10 then digitChar n :: acc
    else natDigitsAux fuel (n / 10) (digitChar (n % 10) :: acc)

/-- Decimal digits of a natural number, most significant first. -/
def natDigits (n : Nat) : List Char := natDigitsAux (n + 1) n []

/-- Decimal rendering of a natural number (Python str on int). -/
def natToStr (n : Nat) : String := String.mk (natDigits n)

/-- Node identifier as produced by the builder (Python f-string "n_..."). -/
def idStr (k : Nat) : String := "n_" ++ natToStr k

/-- A graph node: the id, type and content fields of ScriptGraphNode
(layout fields are owned by the renderer and not modelled). -/
structure Node where
  id : String
  type : String
  content : String
deriving Repr, DecidableEq

/-- An edge (fromNodeId, toNodeId) of the section graph. -/
abbrev Conn := String × String

/-- The configured node-type rules hardcoded as the fallback in
_load_node_types_config, in configured order. -/
def node_types : List (String × (String → Bool)) :=
  [("start", matchStartPat), ("end", matchEndPat),
   ("function", matchKwWs "function"), ("function_call", matchKwWs "call"),
   ("jump", matchJumpPat), ("wait", matchKwWs "wait"),
   ("show", matchKwWs "show"), ("condition", matchIfPat)]

/-- The configured default node type. -/
def default_node_type : String := "dialogue"

/-- Name of the first matching rule, if any (first match wins). -/
def classifyRule (l : String) : Option String :=
  (node_types.find? (fun r => r.2 l)).map (fun r => r.1)

/-- Main-line classification in parse_script_content: first matching rule,
with the function_call alias normalized to function. -/
def classifyMain (l : String) : String :=
  match classifyRule l with
  | some nt => if nt == "function_call" then "function" else nt
  | none => default_node_type

/-- Branch classification in process_branch: first matching rule, with no
alias normalization. -/
def classifyBranch (l : String) : String := (classifyRule l).getD default_node_type

/-- The configured ignore patterns (name headers and blank lines). -/
def ignore_patterns : List (String → Bool) := [matchNamePat, matchBlankPat]

/-- A line matching any ignore pattern is dropped by the main loop. -/
def isIgnored (l : String) : Bool := ignore_patterns.any (fun p => p l)

/-- Line-routing loop of _parse_conditional_block over the lines after the
condition line: accumulates the condition content and the two branch
blocks, terminating early at an endif line. -/
def condLoop : List String → Option Bool → String → List String → List String →
    String × List String × List String
  | [], _, c, t, f => (c, t, f)
  | l :: rest, cur, c, t, f =>
    let s := strip l
    if lowerEq s "true:" then condLoop rest (some true) c t f
    else if lowerEq s "false:" then condLoop rest (some false) c t f
    else if lowerEq s "endif" then (c, t, f)
    else
      match cur with
      | some true => condLoop rest cur c (t ++ [s]) f
      | some false => condLoop rest cur c t (f ++ [s])
      | none => condLoop rest cur (c ++ "\n" ++ s) t f

/-- process_branch of _parse_conditional_block: one node per non-blank
line, classified without the alias normalization and without consulting
the ignore patterns; the id counter is threaded through. -/
def process_branch : List String → Nat → List Node × Nat
  | [], c => ([], c)
  | l :: rest, c =>
    if strip l == "" then process_branch rest c
    else
      let r := process_branch rest (c + 1)
      (⟨idStr c, classifyBranch l, l⟩ :: r.1, r.2)

/-- Result of _parse_conditional_block: nodes, internal edges, and the two
join sources (last true node or condition, last false node or condition). -/
structure CondResult where
  nodes : List Node
  conns : List Conn
  lastTrue : Option Node
  lastFalse : Option Node
deriving Repr, DecidableEq

/-- Sequential chaining edges within one branch: one edge per adjacent
pair of branch nodes (the index loop over j and j + 1). -/
def chainConns (ts : List Node) : List Conn :=
  (ts.zip ts.tail).map (fun p => (p.1.id, p.2.id))

/-- Edges of one branch: condition to first branch node, then the chain. -/
def branchConns (cond : Node) : List Node → List Conn
  | [] => []
  | t :: ts => (cond.id, t.id) :: chainConns (t :: ts)

/-- Embedding of _parse_conditional_block. -/
def parseConditionalBlock : List String → Nat → CondResult
  | [], _ => ⟨[], [], none, none⟩
  | l0 :: rest, start =>
    let split := condLoop rest none (strip l0) [] []
    let condNode : Node := ⟨idStr start, "if_show_variant", split.1⟩
    let tR := process_branch split.2.1 (start + 1)
    let fR := process_branch split.2.2 tR.2
    { nodes := condNode :: (tR.1 ++ fR.1)
      conns := branchConns condNode tR.1 ++ branchConns condNode fR.1
      lastTrue := some (tR.1.getLastD condNode)
      lastFalse := some (fR.1.getLastD condNode) }

/-- One processed run of the pre-scan: a single normal line or the line
block of one conditional construct. -/
inductive Run
  | normal (line : String)
  | cond (blk : List String)
deriving Repr, DecidableEq

/-- Pre-scan state machine of parse_script_content: groups stripped lines
into normal runs and conditional runs; a conditional block collects lines
through the closing endif, or through end-of-section when it is missing. -/
def preScanAux : List String → Option (List String) → List Run
  | [], acc =>
    (match acc with
     | none => []
     | some blk => [Run.cond blk.reverse])
  | l :: rest, acc =>
    let s := strip l
    match acc with
    | some blk =>
      if lowerEq s "endif" then Run.cond (s :: blk).reverse :: preScanAux rest none
      else preScanAux rest (some (s :: blk))
    | none =>
      if isCondTrigger s then preScanAux rest (some [s])
      else Run.normal s :: preScanAux rest none

def preScan (ls : List String) : List Run := preScanAux ls none

/-- Running state of the main run-processing loop of parse_script_content:
emitted nodes and edges, the id counter, the previous main-line node, and
the pending join sources. -/
structure BState where
  nodes : List Node
  conns : List Conn
  counter : Nat
  prev : Option Node
  condEnds : List Node
deriving Repr, DecidableEq

def optToList : Option Node → List Node
  | some n => [n]
  | none => []

/-- One iteration of the run-processing loop of parse_script_content. -/
def stepRun (st : BState) : Run → BState
  | .cond blk =>
    let r := parseConditionalBlock blk st.counter
    let conns1 := st.conns ++ r.conns
    let conns2 :=
      match st.prev, r.nodes with
      | some p, n0 :: _ => conns1 ++ [(p.id, n0.id)]
      | _, _ => conns1
    { nodes := st.nodes ++ r.nodes
      conns := conns2
      counter := st.counter + r.nodes.length
      prev := none
      condEnds := st.condEnds ++ optToList r.lastTrue ++ optToList r.lastFalse }
  | .normal line =>
    if isIgnored line then st
    else
      let node : Node := ⟨idStr st.counter, classifyMain line, line⟩
      let ceConns := st.condEnds.map (fun ce => (ce.id, node.id))
      let pConns :=
        match st.prev with
        | some p => if st.condEnds.isEmpty then [(p.id, node.id)] else []
        | none => []
      { nodes := st.nodes ++ [node]
        conns := st.conns ++ ceConns ++ pConns
        counter := st.counter + 1
        prev := some node
        condEnds := [] }

def initState : BState := ⟨[], [], 0, none, []⟩

/-- Per-section graph builder of parse_script_content: the node list and
edge list produced for one section's line sequence. -/
def buildSection (lines : List String) : List Node × List Conn :=
  let st := (preScan lines).foldl stepRun initState
  (st.nodes, st.conns)

/-- Detects a pre-scan that ends inside a conditional run whose endif is
missing: the collecting state is still active at end-of-section. -/
def endsOpenAux : List String → Bool → Bool
  | [], inCond => inCond
  | l :: rest, true =>
    if lowerEq (strip l) "endif" then endsOpenAux rest false
    else endsOpenAux rest true
  | l :: rest, false =>
    if isCondTrigger (strip l) then endsOpenAux rest true
    else endsOpenAux rest false

def endsOpen (ls : List String) : Bool := endsOpenAux ls false

/-- Split on single newline characters (Python str.split on a newline). -/
def splitLinesAux : List Char → List Char → List (List Char)
  | [], acc => [acc.reverse]
  | c :: rest, acc =>
    if c == '\n' then acc.reverse :: splitLinesAux rest []
    else splitLinesAux rest (c :: acc)

def splitLines (s : String) : List String := (splitLinesAux s.data []).map String.mk

/-- Split on the section separator (Python str.split on a newline, three
dashes, newline); the fuel equals the input length, which always
suffices since every step consumes at least one character. -/
def sepSplitAux : Nat → List Char → List Char → List (List Char)
  | 0, cs, acc => [acc.reverse ++ cs]
  | fuel + 1, cs, acc =>
    match cs with
    | [] => [acc.reverse]
    | c :: rest =>
      if "\n---\n".data.isPrefixOf (c :: rest) then
        acc.reverse :: sepSplitAux fuel (rest.drop 4) []
      else sepSplitAux fuel rest (c :: acc)

def splitDocument (content : String) : List String :=
  (sepSplitAux content.data.length content.data []).map String.mk

/-- Characters of a match of the dot pattern: everything up to a newline. -/
def takeNoNl (cs : List Char) : List Char := cs.takeWhile (fun c => !(c == '\n'))

/-- Attempts the name-header search pattern (literal "name:" then optional
whitespace then a non-empty dotted group, IGNORECASE) at one line-start
position, returning the captured group: the whitespace run may span
newlines, and when everything after the colon is whitespace the greedy
quantifier backtracks so the group captures the last non-newline
whitespace character. -/
def tryNameAt (cs : List Char) : Option String :=
  match stripLitCI "name:".data cs with
  | none => none
  | some r =>
    let ws := r.takeWhile Char.isWhitespace
    if ws.length < r.length then some (String.mk (takeNoNl (r.drop ws.length)))
    else
      match r.reverse.dropWhile (fun c => c == '\n') with
      | [] => none
      | c :: _ => some (String.mk [c])

/-- Suffixes of the text that start right after a newline (the positions
where a MULTILINE caret matches, other than the very start). -/
def afterNl : List Char → List (List Char)
  | [] => []
  | c :: rest => if c == '\n' then rest :: afterNl rest else afterNl rest

/-- Embedding of the section-name search (re.search with MULTILINE and
IGNORECASE): the first line-start position with a name-header match wins. -/
def findNameHeader (s : String) : Option String :=
  (s.data :: afterNl s.data).findSome? tryNameAt

/-- Embedding of parse_script_content: split the document on the section
separator, strip each block, skip empty blocks, extract the section name
or default it from the raw split index, and build each section's graph. -/
def parse_script_content (content : String) :
    List (String × List Node × List Conn) :=
  (splitDocument content).enum.filterMap (fun p =>
    let s := strip p.2
    if s == "" then none
    else
      let name :=
        match findNameHeader s with
        | some g => strip g
        | none => "Section " ++ natToStr (p.1 + 1)
      some (name, buildSection (splitLines s)))

/-- True when the next character position is not inside a word (the regex
word boundary after a word character). -/
def wordBoundary : List Char → Bool
  | [] => true
  | c :: _ => !(c.isAlphanum || c == '_')

/-- Matches optional whitespace, a word, then a word boundary
(re.match, IGNORECASE). -/
def matchWordFold (w : String) (l : String) : Bool :=
  match stripLitCI w.data (dropWs l.data) with
  | some r => wordBoundary r
  | none => false

/-- Fold start for function blocks: the function-or-call alternation. -/
def matchFuncFold (l : String) : Bool :=
  matchWordFold "function" l || matchWordFold "call" l

def matchEndFold (l : String) : Bool := matchWordFold "end" l

def matchEndifFold (l : String) : Bool := matchWordFold "endif" l

/-- Fold start for conditional blocks: optional whitespace then the three
words of the marker separated by whitespace runs, then a boundary. -/
def matchIfShowVariantFold (l : String) : Bool :=
  match stripLitCI "if".data (dropWs l.data) with
  | some (c :: rest) =>
    c.isWhitespace &&
      (match stripLitCI "show".data (dropWs rest) with
       | some (c2 :: rest2) =>
         c2.isWhitespace &&
           (match stripLitCI "variant".data (dropWs rest2) with
            | some r3 => wordBoundary r3
            | none => false)
       | _ => false)
  | _ => false

/-- Matches a separator line: optional whitespace, three dashes, optional
whitespace, end of line. -/
def matchSepLine (l : String) : Bool :=
  match dropWs l.data with
  | '-' :: '-' :: '-' :: rest => (dropWs rest).isEmpty
  | _ => false

/-- Insertion into the fold-range dictionary (Python dict assignment):
replace the value of an existing key in place, else append. -/
def dictInsert (m : List (Nat × Nat)) (k v : Nat) : List (Nat × Nat) :=
  if m.any (fun p => p.1 == k) then
    m.map (fun p => if p.1 == k then (k, v) else p)
  else m ++ [(k, v)]

/-- A line that stops the forward scan of a name-header fold: a separator
line or another name header. -/
def nameFoldStop (t : String) : Bool := matchSepLine t || matchNamePat t

/-- Length of the forward scan from the line after a name header. -/
def nameScanLen (rest : List String) : Nat :=
  (rest.takeWhile (fun t => !(nameFoldStop t))).length

/-- Main loop of compute_fold_ranges: one pass over the document lines with
the function stack, the conditional stack and the accumulated ranges. -/
def computeFoldLoop : List String → Nat → List Nat → List Nat →
    List (Nat × Nat) → List (Nat × Nat)
  | [], _, _, _, acc => acc
  | t :: rest, n, funcStack, ifStack, acc =>
    let s1 := if matchFuncFold t then n :: funcStack else funcStack
    let p1 :=
      if matchEndFold t then
        match s1 with
        | st :: ss => (ss, dictInsert acc st n)
        | [] => (s1, acc)
      else (s1, acc)
    let s3 := if matchIfShowVariantFold t then n :: ifStack else ifStack
    let p2 :=
      if matchEndifFold t then
        match s3 with
        | st :: ss => (ss, dictInsert p1.2 st n)
        | [] => (s3, p1.2)
      else (s3, p1.2)
    let acc3 :=
      if matchNamePat t then
        let k := nameScanLen rest
        if 0 < k then dictInsert p2.2 n (n + k) else p2.2
      else p2.2
    computeFoldLoop rest (n + 1) p1.1 p2.1 acc3

/-- Embedding of compute_fold_ranges together with the subsequent pruning
of the folded-state set: returns the new range mapping and the folded set
restricted to keys of the new mapping. -/
def compute_fold_ranges (lines : List String) (folded : List Nat) :
    List (Nat × Nat) × List Nat :=
  let ranges := computeFoldLoop lines 0 [] [] []
  (ranges, folded.filter (fun s => ranges.any (fun p => p.1 == s)))

/-- The configured jump marker (the jump_to field of the editor). -/
def jumpMarker : String := "Jump To "

def takeStr (s : String) (n : Nat) : String := String.mk (s.data.take n)

def dropStr (s : String) (n : Nat) : String := String.mk (s.data.drop n)

/-- The trigger test of _show_autocomplete for the jump domain: the text
before the cursor, lower-cased, ends with the lower-cased jump marker. -/
def isJumpContext (line : String) (cursorPos : Nat) : Bool :=
  "jump to ".data.isSuffixOf (lowerData (takeStr line cursorPos))

/-- Embedding of str.rfind of the lowered jump marker in the lowered line:
the greatest position where the marker occurs, if any. -/
def rfindJump (line : String) : Option Nat :=
  ((List.range (line.data.length + 1)).filter
    (fun i => "jump to ".data.isPrefixOf ((lowerData line).drop i))).getLast?

/-- The delimiters of the backward word scan of the autocomplete code. -/
def isDelim (c : Char) : Bool :=
  c == ' ' || c == ':' || c == '\t' || c == '\n' || c == '\r'

/-- Backward scan from the cursor for the start of the current word: one
past the last delimiter before the cursor, else the start of the line
(the out-of-range default is never consulted when the cursor is inside
the line). -/
def wordStart (line : String) (cursorPos : Nat) : Nat :=
  match ((List.range cursorPos).filter
      (fun i => isDelim (line.data.getD i 'x'))).getLast? with
  | some i => i + 1
  | none => 0

/-- Embedding of _insert_autocomplete_item as its effect on the text of the
current line: when the jump marker occurs in the line, the text from the
end of its last occurrence through the end of the line is replaced by the
item; otherwise the current word span before the cursor is replaced. -/
def insertAutocompleteItem (line : String) (cursorPos : Nat)
    (item : String) : String :=
  match rfindJump line with
  | some p => takeStr line (p + jumpMarker.data.length) ++ item
  | none =>
    let s := wordStart line cursorPos
    takeStr line s ++ item ++ dropStr line cursorPos

/-! Injectivity of the rendered node identifiers. -/

/-- Decimal decoding, a left inverse of the digit rendering. -/
def decodeDigits (cs : List Char) : Nat :=
  cs.foldl (fun a c => a * 10 + (c.toNat - 48)) 0

theorem digitVal_digitChar (m : Nat) (h : m < 10) :
    (digitChar m).toNat - 48 = m := by
  interval_cases m <;> rfl

theorem natDigitsAux_shift (n : Nat) : ∀ fuel acc, n < fuel →
    natDigitsAux fuel n acc = natDigits n ++ acc := by
  induction n using Nat.strong_induction_on with
  | _ n ih =>
    intro fuel acc hf
    match fuel, hf with
    | fuel + 1, _ =>
      by_cases h10 : n < 10
      · simp [natDigitsAux, natDigits, h10]
      · have hdiv : n / 10 < n := Nat.div_lt_self (by omega) (by omega)
        have hfu : n / 10 < fuel := by
          have : n ≤ fuel := by omega
          omega
        have h1 := ih (n / 10) hdiv fuel (digitChar (n % 10) :: acc) hfu
        have h2 := ih (n / 10) hdiv n [digitChar (n % 10)] hdiv
        simp only [natDigitsAux, h10, if_false, natDigits]
        rw [h1, h2]
        simp

theorem natDigits_ge (n : Nat) (h10 : 10 ≤ n) :
    natDigits n = natDigits (n / 10) ++ [digitChar (n % 10)] := by
  have hdiv : n / 10 < n := Nat.div_lt_self (by omega) (by omega)
  have : natDigits n = natDigitsAux n (n / 10) [digitChar (n % 10)] := by
    simp [natDigits, natDigitsAux, Nat.not_lt.mpr h10]
  rw [this, natDigitsAux_shift (n / 10) n [digitChar (n % 10)] hdiv]

theorem decodeDigits_append (ds : List Char) (c : Char) :
    decodeDigits (ds ++ [c]) = decodeDigits ds * 10 + (c.toNat - 48) := by
  simp [decodeDigits, List.foldl_append]

theorem decode_natDigits (n : Nat) : decodeDigits (natDigits n) = n := by
  induction n using Nat.strong_induction_on with
  | _ n ih =>
    by_cases h10 : n < 10
    · have h : natDigits n = [digitChar n] := by
        simp [natDigits, natDigitsAux, h10]
      rw [h]
      simp [decodeDigits, digitVal_digitChar n h10]
    · have hdiv : n / 10 < n := Nat.div_lt_self (by omega) (by omega)
      rw [natDigits_ge n (by omega), decodeDigits_append, ih (n / 10) hdiv,
        digitVal_digitChar (n % 10) (Nat.mod_lt n (by omega))]
      omega

theorem natToStr_inj {a b : Nat} (h : natToStr a = natToStr b) : a = b := by
  have hd : natDigits a = natDigits b := congrArg String.data h
  have := congrArg decodeDigits hd
  rwa [decode_natDigits, decode_natDigits] at this

theorem idStr_inj {a b : Nat} (h : idStr a = idStr b) : a = b := by
  apply natToStr_inj
  have hd := congrArg String.data h
  simp only [idStr, String.data_append] at hd
  have : (natToStr a).data = (natToStr b).data :=
    List.append_cancel_left hd
  exact String.ext this

theorem idStr_injective : Function.Injective idStr := fun _ _ h => idStr_inj h

/-! Claim C1. -/

/-- C1: for the section ["if X", "true:", "A", "endif", "C"] the builder
produces the condition node, the true-branch node A and the normal node C,
and exactly the edges (cond, A), (A, C), (cond, C): C receives one edge
from the true-branch tail A and one directly from the condition node that
stands in for the empty false branch. -/
theorem c1_empty_branch_join :
    buildSection ["if X", "true:", "A", "endif", "C"] =
      ([⟨"n_0", "if_show_variant", "if X"⟩, ⟨"n_1", "dialogue", "A"⟩,
        ⟨"n_2", "dialogue", "C"⟩],
       [("n_0", "n_1"), ("n_1", "n_2"), ("n_0", "n_2")]) := by decide

/-! Builder invariants: identifier ordering and edge integrity. -/

theorem process_branch_spec (blk : List String) : ∀ c,
    ((process_branch blk c).1.map (fun n => n.id) =
      (List.range' c (process_branch blk c).1.length).map idStr) ∧
    (process_branch blk c).2 = c + (process_branch blk c).1.length := by
  induction blk with
  | nil => intro c; simp [process_branch]
  | cons l rest ih =>
    intro c
    by_cases h : strip l = ""
    · simpa [process_branch, h] using ih c
    · obtain ⟨h1, h2⟩ := ih (c + 1)
      refine ⟨?_, ?_⟩
      · simp [process_branch, h, h1, List.range'_succ]
      · simp only [process_branch, beq_iff_eq, h, if_false]
        simp only [List.length_cons]
        omega

theorem getLastD_mem_or (l : List Node) : ∀ d, l.getLastD d = d ∨ l.getLastD d ∈ l := by
  induction l with
  | nil => intro d; left; rfl
  | cons a rest ih =>
    intro d
    rw [List.getLastD_cons]
    rcases ih a with h | h
    · right
      rw [h]
      exact List.mem_cons_self a rest
    · right
      exact List.mem_cons_of_mem a h

theorem chainConns_src (ts : List Node) (e : Conn) (he : e ∈ chainConns ts) :
    ∃ n ∈ ts, n.id = e.1 := by
  simp only [chainConns, List.mem_map] at he
  obtain ⟨p, hp, he2⟩ := he
  exact ⟨p.1, (List.of_mem_zip hp).1, by rw [← he2]⟩

theorem chainConns_tgt (ts : List Node) (e : Conn) (he : e ∈ chainConns ts) :
    ∃ n ∈ ts.tail, n.id = e.2 := by
  simp only [chainConns, List.mem_map] at he
  obtain ⟨p, hp, he2⟩ := he
  exact ⟨p.2, (List.of_mem_zip hp).2, by rw [← he2]⟩

theorem branchConns_src (cond : Node) (ts : List Node) (e : Conn)
    (he : e ∈ branchConns cond ts) : e.1 = cond.id ∨ ∃ n ∈ ts, n.id = e.1 := by
  cases ts with
  | nil => simp [branchConns] at he
  | cons t ts' =>
    rcases List.mem_cons.mp he with h | h
    · left; rw [h]
    · right; exact chainConns_src (t :: ts') e h

theorem branchConns_tgt (cond : Node) (ts : List Node) (e : Conn)
    (he : e ∈ branchConns cond ts) : ∃ n ∈ ts, n.id = e.2 := by
  cases ts with
  | nil => simp [branchConns] at he
  | cons t ts' =>
    rcases List.mem_cons.mp he with h | h
    · exact ⟨t, List.mem_cons_self t ts', by rw [h]⟩
    · obtain ⟨n, hn, he2⟩ := chainConns_tgt (t :: ts') e h
      exact ⟨n, List.mem_cons_of_mem t hn, he2⟩

theorem parseCond_ids (blk : List String) (s : Nat) :
    (parseConditionalBlock blk s).nodes.map (fun n => n.id) =
      (List.range' s (parseConditionalBlock blk s).nodes.length).map idStr := by
  cases blk with
  | nil => simp [parseConditionalBlock]
  | cons l0 rest =>
    simp only [parseConditionalBlock]
    obtain ⟨ht1, ht2⟩ :=
      process_branch_spec (condLoop rest none (strip l0) [] []).2.1 (s + 1)
    simp only [List.map_cons, List.map_append, List.length_cons, List.length_append]
    rw [ht2]
    set T := (condLoop rest none (strip l0) [] []).2.1
    set F := (condLoop rest none (strip l0) [] []).2.2
    set kt := (process_branch T (s + 1)).1.length with hkt
    obtain ⟨hf1, _⟩ := process_branch_spec F (s + 1 + kt)
    set kf := (process_branch F (s + 1 + kt)).1.length with hkf
    rw [ht1, hf1, ← List.map_append, List.range'_append_1, List.range'_succ,
      List.map_cons, Nat.add_comm kf kt]

theorem parseCond_conns (blk : List String) (s : Nat) (e : Conn)
    (he : e ∈ (parseConditionalBlock blk s).conns) :
    (∃ n ∈ (parseConditionalBlock blk s).nodes, n.id = e.1) ∧
      (∃ n ∈ (parseConditionalBlock blk s).nodes.tail, n.id = e.2) := by
  cases blk with
  | nil => simp [parseConditionalBlock] at he
  | cons l0 rest =>
    simp only [parseConditionalBlock] at he ⊢
    rcases List.mem_append.mp he with h | h
    · refine ⟨?_, ?_⟩
      · rcases branchConns_src _ _ _ h with h1 | ⟨n, hn, h1⟩
        · exact ⟨_, List.mem_cons_self _ _, h1.symm⟩
        · exact ⟨n, List.mem_cons_of_mem _ (List.mem_append_left _ hn), h1⟩
      · obtain ⟨n, hn, h1⟩ := branchConns_tgt _ _ _ h
        exact ⟨n, List.mem_append_left _ hn, h1⟩
    · refine ⟨?_, ?_⟩
      · rcases branchConns_src _ _ _ h with h1 | ⟨n, hn, h1⟩
        · exact ⟨_, List.mem_cons_self _ _, h1.symm⟩
        · exact ⟨n, List.mem_cons_of_mem _ (List.mem_append_right _ hn), h1⟩
      · obtain ⟨n, hn, h1⟩ := branchConns_tgt _ _ _ h
        exact ⟨n, List.mem_append_right _ hn, h1⟩

theorem parseCond_lastTrue (blk : List String) (s : Nat) (n : Node)
    (h : (parseConditionalBlock blk s).lastTrue = some n) :
    n ∈ (parseConditionalBlock blk s).nodes := by
  cases blk with
  | nil => simp [parseConditionalBlock] at h
  | cons l0 rest =>
    simp only [parseConditionalBlock, Option.some.injEq] at h
    subst h
    simp only [parseConditionalBlock]
    rcases getLastD_mem_or (process_branch (condLoop rest none (strip l0) [] []).2.1 (s + 1)).1
        ⟨idStr s, "if_show_variant", (condLoop rest none (strip l0) [] []).1⟩ with h | h
    · rw [h]; exact List.mem_cons_self _ _
    · exact List.mem_cons_of_mem _ (List.mem_append_left _ h)

theorem parseCond_lastFalse (blk : List String) (s : Nat) (n : Node)
    (h : (parseConditionalBlock blk s).lastFalse = some n) :
    n ∈ (parseConditionalBlock blk s).nodes := by
  cases blk with
  | nil => simp [parseConditionalBlock] at h
  | cons l0 rest =>
    simp only [parseConditionalBlock, Option.some.injEq] at h
    subst h
    simp only [parseConditionalBlock]
    rcases getLastD_mem_or
        (process_branch (condLoop rest none (strip l0) [] []).2.2
          (process_branch (condLoop rest none (strip l0) [] []).2.1 (s + 1)).2).1
        ⟨idStr s, "if_show_variant", (condLoop rest none (strip l0) [] []).1⟩ with h | h
    · rw [h]; exact List.mem_cons_self _ _
    · exact List.mem_cons_of_mem _ (List.mem_append_right _ h)

/-- Loop invariant of the run-processing loop: nodes carry the ids
idStr 0 .. idStr (counter - 1) in emission order, the previous node and
the pending join sources are emitted nodes, and every edge endpoint is
the id of an emitted node. -/
structure Inv (st : BState) : Prop where
  ids : st.nodes.map (fun n => n.id) = (List.range st.counter).map idStr
  prevMem : ∀ p, st.prev = some p → p ∈ st.nodes
  endsMem : ∀ ce ∈ st.condEnds, ce ∈ st.nodes
  connsMem : ∀ e ∈ st.conns,
    (∃ n ∈ st.nodes, n.id = e.1) ∧ (∃ n ∈ st.nodes, n.id = e.2)

theorem Inv.len {st : BState} (h : Inv st) : st.nodes.length = st.counter := by
  have := congrArg List.length h.ids
  simpa using this

theorem inv_init : Inv initState := by
  refine ⟨?_, ?_, ?_, ?_⟩ <;> simp [initState]

theorem stepRun_cond_nodes (st : BState) (blk : List String) :
    (stepRun st (Run.cond blk)).nodes =
      st.nodes ++ (parseConditionalBlock blk st.counter).nodes := by
  simp [stepRun]

theorem stepRun_cond_counter (st : BState) (blk : List String) :
    (stepRun st (Run.cond blk)).counter =
      st.counter + (parseConditionalBlock blk st.counter).nodes.length := by
  simp [stepRun]

theorem stepRun_cond_prev (st : BState) (blk : List String) :
    (stepRun st (Run.cond blk)).prev = none := by
  simp [stepRun]

theorem stepRun_cond_condEnds (st : BState) (blk : List String) :
    (stepRun st (Run.cond blk)).condEnds =
      st.condEnds ++ optToList (parseConditionalBlock blk st.counter).lastTrue ++
        optToList (parseConditionalBlock blk st.counter).lastFalse := by
  simp [stepRun]

theorem stepRun_cond_conns (st : BState) (blk : List String) :
    (stepRun st (Run.cond blk)).conns =
      st.conns ++ (parseConditionalBlock blk st.counter).conns ++
      (match st.prev, (parseConditionalBlock blk st.counter).nodes with
       | some p, n0 :: _ => [(p.id, n0.id)]
       | _, _ => []) := by
  cases hp : st.prev with
  | none =>
    cases hn : (parseConditionalBlock blk st.counter).nodes with
    | nil => simp [stepRun, hp, hn]
    | cons n0 tl => simp [stepRun, hp, hn]
  | some p =>
    cases hn : (parseConditionalBlock blk st.counter).nodes with
    | nil => simp [stepRun, hp, hn]
    | cons n0 tl => simp [stepRun, hp, hn]

theorem inv_step (st : BState) (r : Run) (h : Inv st) : Inv (stepRun st r) := by
  cases r with
  | normal line =>
    by_cases hig : isIgnored line
    · simpa [stepRun, hig] using h
    · refine ⟨?_, ?_, ?_, ?_⟩
      · simp [stepRun, hig, List.range_succ, h.ids]
      · intro p hp
        simp only [stepRun, hig, Bool.false_eq_true, if_false, Option.some.injEq] at hp ⊢
        rw [← hp]
        simp
      · intro ce hce
        simp [stepRun, hig] at hce
      · intro e he
        simp only [stepRun, hig, Bool.false_eq_true, if_false] at he ⊢
        rw [List.append_assoc, List.mem_append] at he
        rcases he with he | he
        · obtain ⟨⟨n1, hn1, hi1⟩, ⟨n2, hn2, hi2⟩⟩ := h.connsMem e he
          exact ⟨⟨n1, List.mem_append_left _ hn1, hi1⟩,
            ⟨n2, List.mem_append_left _ hn2, hi2⟩⟩
        · rw [List.mem_append] at he
          rcases he with he | he
          · simp only [List.mem_map] at he
            obtain ⟨ce, hce, hee⟩ := he
            refine ⟨⟨ce, List.mem_append_left _ (h.endsMem ce hce), ?_⟩,
              ⟨⟨idStr st.counter, classifyMain line, line⟩, by simp, ?_⟩⟩
            · rw [← hee]
            · rw [← hee]
          · cases hp : st.prev with
            | none => rw [hp] at he; simp at he
            | some p =>
              rw [hp] at he
              by_cases hce : st.condEnds.isEmpty
              · simp only [hce, if_true, List.mem_singleton] at he
                subst he
                exact ⟨⟨p, List.mem_append_left _ (h.prevMem p hp), rfl⟩,
                  ⟨⟨idStr st.counter, classifyMain line, line⟩, by simp, rfl⟩⟩
              · simp [hce] at he
  | cond blk =>
    have hids : (st.nodes ++ (parseConditionalBlock blk st.counter).nodes).map
        (fun n => n.id) =
        (List.range (st.counter +
          (parseConditionalBlock blk st.counter).nodes.length)).map idStr := by
      rw [List.map_append, h.ids, parseCond_ids, ← List.map_append]
      congr 1
      rw [List.range_eq_range', List.range_eq_range']
      have h2 := List.range'_append_1 0 st.counter
        (parseConditionalBlock blk st.counter).nodes.length
      rw [Nat.zero_add] at h2
      rw [h2, Nat.add_comm]
    refine ⟨?_, ?_, ?_, ?_⟩
    · rw [stepRun_cond_nodes, stepRun_cond_counter]
      exact hids
    · intro p hp
      rw [stepRun_cond_prev] at hp
      exact absurd hp (by simp)
    · intro ce hce
      rw [stepRun_cond_condEnds] at hce
      rw [stepRun_cond_nodes]
      rcases List.mem_append.mp hce with hce | hce
      · rcases List.mem_append.mp hce with hce | hce
        · exact List.mem_append_left _ (h.endsMem ce hce)
        · cases hlt : (parseConditionalBlock blk st.counter).lastTrue with
          | none => rw [hlt] at hce; simp [optToList] at hce
          | some n =>
            rw [hlt] at hce
            simp only [optToList, List.mem_singleton] at hce
            subst hce
            exact List.mem_append_right _ (parseCond_lastTrue blk st.counter _ hlt)
      · cases hlf : (parseConditionalBlock blk st.counter).lastFalse with
        | none => rw [hlf] at hce; simp [optToList] at hce
        | some n =>
          rw [hlf] at hce
          simp only [optToList, List.mem_singleton] at hce
          subst hce
          exact List.mem_append_right _ (parseCond_lastFalse blk st.counter _ hlf)
    · intro e he
      rw [stepRun_cond_conns] at he
      rw [stepRun_cond_nodes]
      rcases List.mem_append.mp he with he | he
      · rcases List.mem_append.mp he with he | he
        · obtain ⟨⟨n1, hn1, hi1⟩, ⟨n2, hn2, hi2⟩⟩ := h.connsMem e he
          exact ⟨⟨n1, List.mem_append_left _ hn1, hi1⟩,
            ⟨n2, List.mem_append_left _ hn2, hi2⟩⟩
        · obtain ⟨⟨n1, hn1, hi1⟩, ⟨n2, hn2, hi2⟩⟩ :=
            parseCond_conns blk st.counter e he
          exact ⟨⟨n1, List.mem_append_right _ hn1, hi1⟩,
            ⟨n2, List.mem_append_right _ (List.mem_of_mem_tail hn2), hi2⟩⟩
      · cases hp : st.prev with
        | none =>
          rw [hp] at he
          simp at he
        | some p =>
          cases hn : (parseConditionalBlock blk st.counter).nodes with
          | nil =>
            rw [hp, hn] at he
            simp at he
          | cons n0 tl =>
            rw [hp, hn] at he
            simp at he
            subst he
            refine ⟨⟨p, List.mem_append_left _ (h.prevMem p hp), rfl⟩,
              ⟨n0, List.mem_append_right _ ?_, rfl⟩⟩
            exact List.mem_cons_self _ _

theorem inv_foldl (rs : List Run) : ∀ st, Inv st → Inv (rs.foldl stepRun st) := by
  induction rs with
  | nil => intro st h; exact h
  | cons r rs ih =>
    intro st h
    exact ih _ (inv_step st r h)

theorem buildSection_inv (lines : List String) :
    Inv ((preScan lines).foldl stepRun initState) :=
  inv_foldl (preScan lines) initState inv_init

/-! Claims C2 and C3. -/

/-- C2: for every section line sequence all node ids in the builder output
are pairwise distinct, and they are assigned in strict emission order
n_0, n_1, ...: the id list equals the rendered counter range. -/
theorem c2_id_uniqueness (lines : List String) :
    ((buildSection lines).1.map (fun n => n.id) =
      (List.range (buildSection lines).1.length).map idStr) ∧
    ((buildSection lines).1.map (fun n => n.id)).Nodup := by
  have hI := buildSection_inv lines
  have hlen := hI.len
  have hids : (buildSection lines).1.map (fun n => n.id) =
      (List.range (buildSection lines).1.length).map idStr := by
    have := hI.ids
    rw [← hlen] at this
    simpa [buildSection] using this
  refine ⟨hids, ?_⟩
  rw [hids]
  exact (List.nodup_range _).map idStr_injective

theorem buildSection_edges_mem (lines : List String) (e : Conn)
    (he : e ∈ (buildSection lines).2) :
    e.1 ∈ (buildSection lines).1.map (fun n => n.id) ∧
    e.2 ∈ (buildSection lines).1.map (fun n => n.id) := by
  have hI := buildSection_inv lines
  have h := hI.connsMem e (by simpa [buildSection] using he)
  obtain ⟨⟨n1, hn1, hi1⟩, ⟨n2, hn2, hi2⟩⟩ := h
  constructor
  · simpa [buildSection] using List.mem_map.mpr ⟨n1, hn1, hi1⟩
  · simpa [buildSection] using List.mem_map.mpr ⟨n2, hn2, hi2⟩

/-- C3: every edge of the builder output references node ids that are both
present in the same section's node list. -/
theorem c3_edge_referential_integrity (lines : List String) (e : Conn)
    (he : e ∈ (buildSection lines).2) :
    e.1 ∈ (buildSection lines).1.map (fun n => n.id) ∧
    e.2 ∈ (buildSection lines).1.map (fun n => n.id) :=
  buildSection_edges_mem lines e he

/-- Witness for C3 at a concrete section with one edge. -/
theorem c3_witness :
    ("n_0", "n_1").1 ∈ ((buildSection ["a", "b"]).1.map (fun n => n.id)) ∧
    ("n_0", "n_1").2 ∈ ((buildSection ["a", "b"]).1.map (fun n => n.id)) :=
  c3_edge_referential_integrity ["a", "b"] ("n_0", "n_1") (by decide)

/-! Claim C8: missing endif is an implicit close. -/

theorem condLoop_append_endif : ∀ (xs : List String) (cur : Option Bool)
    (c : String) (t f : List String),
    condLoop (xs ++ ["endif"]) cur c t f = condLoop xs cur c t f := by
  intro xs
  induction xs with
  | nil =>
    intro cur c t f
    have h1 : lowerEq (strip "endif") "true:" = false := by decide
    have h2 : lowerEq (strip "endif") "false:" = false := by decide
    have h3 : lowerEq (strip "endif") "endif" = true := by decide
    simp [condLoop, h1, h2, h3]
  | cons x xs ih =>
    intro cur c t f
    simp only [List.cons_append, condLoop]
    by_cases h1 : lowerEq (strip x) "true:"
    · simp [h1, ih]
    · by_cases h2 : lowerEq (strip x) "false:"
      · simp [h1, h2, ih]
      · by_cases h3 : lowerEq (strip x) "endif"
        · simp [h1, h2, h3]
        · cases cur with
          | none => simp [h1, h2, h3, ih]
          | some b => cases b <;> simp [h1, h2, h3, ih]

theorem parseCond_append_endif (l0 : String) (rest : List String) (s : Nat) :
    parseConditionalBlock ((l0 :: rest) ++ ["endif"]) s =
      parseConditionalBlock (l0 :: rest) s := by
  simp only [List.cons_append, parseConditionalBlock, condLoop_append_endif]

theorem stepRun_cond_ext (st : BState) (b1 b2 : List String)
    (h : parseConditionalBlock b1 st.counter = parseConditionalBlock b2 st.counter) :
    stepRun st (Run.cond b1) = stepRun st (Run.cond b2) := by
  simp [stepRun, h]

/-- Appends the implicit closing line to the block of the final run, when
that run is a conditional one. -/
def withEndif : List Run → List Run
  | [] => []
  | [Run.cond b] => [Run.cond (b ++ ["endif"])]
  | [r] => [r]
  | r :: rest => r :: withEndif rest

theorem preScanAux_cons_some_endif (l : String) (rest : List String)
    (blk : List String) (he : lowerEq (strip l) "endif" = true) :
    preScanAux (l :: rest) (some blk) =
      Run.cond (strip l :: blk).reverse :: preScanAux rest none := by
  simp [preScanAux, he]

theorem preScanAux_cons_some_other (l : String) (rest : List String)
    (blk : List String) (he : lowerEq (strip l) "endif" = false) :
    preScanAux (l :: rest) (some blk) = preScanAux rest (some (strip l :: blk)) := by
  simp [preScanAux, he]

theorem preScanAux_cons_none_trigger (l : String) (rest : List String)
    (ht : isCondTrigger (strip l) = true) :
    preScanAux (l :: rest) none = preScanAux rest (some [strip l]) := by
  simp [preScanAux, ht]

theorem preScanAux_cons_none_normal (l : String) (rest : List String)
    (ht : isCondTrigger (strip l) = false) :
    preScanAux (l :: rest) none = Run.normal (strip l) :: preScanAux rest none := by
  simp [preScanAux, ht]

theorem preScanAux_ne_nil (ls : List String) : ∀ acc,
    endsOpenAux ls acc.isSome = true → preScanAux ls acc ≠ [] := by
  induction ls with
  | nil =>
    intro acc h
    cases acc with
    | none => simp [endsOpenAux] at h
    | some blk => simp [preScanAux]
  | cons l rest ih =>
    intro acc h
    cases acc with
    | some blk =>
      by_cases he : lowerEq (strip l) "endif"
      · simp [preScanAux, he]
      · have h2 : endsOpenAux rest true = true := by
          simpa [endsOpenAux, he] using h
        simpa [preScanAux, he] using ih (some (strip l :: blk)) (by simpa using h2)
    | none =>
      by_cases ht : isCondTrigger (strip l)
      · have h2 : endsOpenAux rest true = true := by
          simpa [endsOpenAux, ht] using h
        simpa [preScanAux, ht] using ih (some [strip l]) (by simpa using h2)
      · simp [preScanAux, ht]

theorem preScanAux_append_endif (ls : List String) : ∀ (acc : Option (List String)),
    endsOpenAux ls acc.isSome = true →
    preScanAux (ls ++ ["endif"]) acc = withEndif (preScanAux ls acc) := by
  induction ls with
  | nil =>
    intro acc h
    cases acc with
    | none => simp [endsOpenAux] at h
    | some blk =>
      have h4 : strip "endif" = "endif" := by decide
      have h3 : lowerEq (strip "endif") "endif" = true := by decide
      simp [preScanAux, withEndif, h3, h4]
  | cons l rest ih =>
    intro acc h
    cases acc with
    | some blk =>
      by_cases he : lowerEq (strip l) "endif"
      · have h2 : endsOpenAux rest false = true := by
          simpa [endsOpenAux, he] using h
        have hne := preScanAux_ne_nil rest none (by simpa using h2)
        have ihe := ih none (by simpa using h2)
        rw [List.cons_append, preScanAux_cons_some_endif l (rest ++ ["endif"]) blk he,
          preScanAux_cons_some_endif l rest blk he, ihe]
        cases hq : preScanAux rest none with
        | nil => exact absurd hq hne
        | cons a as => rfl
      · have he2 : lowerEq (strip l) "endif" = false := by simpa using he
        have h2 : endsOpenAux rest true = true := by
          simpa [endsOpenAux, he2] using h
        rw [List.cons_append, preScanAux_cons_some_other l (rest ++ ["endif"]) blk he2,
          preScanAux_cons_some_other l rest blk he2]
        exact ih (some (strip l :: blk)) (by simpa using h2)
    | none =>
      by_cases ht : isCondTrigger (strip l)
      · have h2 : endsOpenAux rest true = true := by
          simpa [endsOpenAux, ht] using h
        rw [List.cons_append, preScanAux_cons_none_trigger l (rest ++ ["endif"]) ht,
          preScanAux_cons_none_trigger l rest ht]
        exact ih (some [strip l]) (by simpa using h2)
      · have ht2 : isCondTrigger (strip l) = false := by simpa using ht
        have h2 : endsOpenAux rest false = true := by
          simpa [endsOpenAux, ht2] using h
        have hne := preScanAux_ne_nil rest none (by simpa using h2)
        have ihe := ih none (by simpa using h2)
        rw [List.cons_append, preScanAux_cons_none_normal l (rest ++ ["endif"]) ht2,
          preScanAux_cons_none_normal l rest ht2, ihe]
        cases hq : preScanAux rest none with
        | nil => exact absurd hq hne
        | cons a as => rfl

theorem preScanAux_condNonempty (ls : List String) : ∀ acc,
    (∀ blk, acc = some blk → blk ≠ []) →
    ∀ b, Run.cond b ∈ preScanAux ls acc → b ≠ [] := by
  induction ls with
  | nil =>
    intro acc hacc b hb
    cases acc with
    | none => simp [preScanAux] at hb
    | some blk =>
      simp only [preScanAux, List.mem_singleton, Run.cond.injEq] at hb
      subst hb
      simpa using hacc blk rfl
  | cons l rest ih =>
    intro acc hacc b hb
    cases acc with
    | some blk =>
      by_cases he : lowerEq (strip l) "endif"
      · simp only [preScanAux, he, if_true, List.mem_cons] at hb
        rcases hb with hb | hb
        · have : b = (strip l :: blk).reverse := by
            injection hb
          subst this
          simp
        · exact ih none (by simp) b hb
      · simp only [preScanAux, he, if_false] at hb
        exact ih (some (strip l :: blk)) (by simp) b hb
    | none =>
      by_cases ht : isCondTrigger (strip l)
      · simp only [preScanAux, ht, if_true] at hb
        exact ih (some [strip l]) (by simp) b hb
      · have ht2 : isCondTrigger (strip l) = false := by simpa using ht
        rw [preScanAux_cons_none_normal l rest ht2] at hb
        rcases List.mem_cons.mp hb with hb | hb
        · exact absurd hb (by simp)
        · exact ih none (by simp) b hb

theorem foldl_withEndif : ∀ (rs : List Run),
    (∀ b, Run.cond b ∈ rs → b ≠ []) →
    ∀ st, (withEndif rs).foldl stepRun st = rs.foldl stepRun st
  | [], _, st => rfl
  | [Run.normal l], _, st => rfl
  | [Run.cond b], h, st => by
    have hb : b ≠ [] := h b (by simp)
    cases b with
    | nil => exact absurd rfl hb
    | cons l0 rest =>
      have hw : withEndif [Run.cond (l0 :: rest)] =
          [Run.cond ((l0 :: rest) ++ ["endif"])] := rfl
      rw [hw]
      simp only [List.foldl_cons, List.foldl_nil]
      rw [stepRun_cond_ext st _ _ (parseCond_append_endif l0 rest st.counter)]
  | r1 :: r2 :: rest, h, st => by
    have h2 : ∀ b, Run.cond b ∈ r2 :: rest → b ≠ [] :=
      fun b hb => h b (List.mem_cons_of_mem _ hb)
    have hw : withEndif (r1 :: r2 :: rest) = r1 :: withEndif (r2 :: rest) := by
      cases r1 <;> cases r2 <;> rfl
    rw [hw]
    simp only [List.foldl_cons]
    exact foldl_withEndif (r2 :: rest) h2 (stepRun st r1)

/-- C8: when a conditional trigger is never closed before end-of-section,
the extractor consumes through end-of-section and treats it as an
implicit close: the builder output equals the output for the same section
with an explicit endif appended, and every edge of the resulting graph
references nodes of the section (a valid graph, not an error). -/
theorem c8_implicit_close (lines : List String) (h : endsOpen lines = true) :
    buildSection (lines ++ ["endif"]) = buildSection lines ∧
    ∀ e ∈ (buildSection lines).2,
      e.1 ∈ (buildSection lines).1.map (fun n => n.id) ∧
      e.2 ∈ (buildSection lines).1.map (fun n => n.id) := by
  constructor
  · have h1 := preScanAux_append_endif lines none (by simpa [endsOpen] using h)
    simp only [buildSection, preScan]
    rw [h1, foldl_withEndif (preScanAux lines none)
      (preScanAux_condNonempty lines none (by simp)) initState]
  · exact fun e he => buildSection_edges_mem lines e he

/-- Witness for C8 at a section whose conditional lacks its endif. -/
theorem c8_witness :
    buildSection (["if X", "true:", "A"] ++ ["endif"]) =
      buildSection ["if X", "true:", "A"] ∧
    ∀ e ∈ (buildSection ["if X", "true:", "A"]).2,
      e.1 ∈ (buildSection ["if X", "true:", "A"]).1.map (fun n => n.id) ∧
      e.2 ∈ (buildSection ["if X", "true:", "A"]).1.map (fun n => n.id) :=
  c8_implicit_close ["if X", "true:", "A"] (by decide)

/-! Claim C9: fold-state pruning. -/

/-- C9: after every recomputation the folded-state set is pruned to the
keys of the new range mapping: every retained start line was folded
before and owns a range in the new mapping, so a start line whose range
disappeared is absent from both. -/
theorem c9_fold_prune (lines : List String) (folded : List Nat) (s : Nat)
    (h : s ∈ (compute_fold_ranges lines folded).2) :
    s ∈ folded ∧ ∃ e, (s, e) ∈ (compute_fold_ranges lines folded).1 := by
  simp only [compute_fold_ranges, List.mem_filter] at h
  obtain ⟨hmem, hkey⟩ := h
  refine ⟨hmem, ?_⟩
  simp only [List.any_eq_true] at hkey
  obtain ⟨p, hp, he⟩ := hkey
  have hs : p.1 = s := by simpa using he
  refine ⟨p.2, ?_⟩
  have hps : (s, p.2) = p := by
    rw [← hs]
  rw [hps]
  simpa [compute_fold_ranges] using hp

/-- Witness for C9 at a document with one function fold. -/
theorem c9_witness :
    0 ∈ [0] ∧
    ∃ e, (0, e) ∈ (compute_fold_ranges ["function f", "x", "end"] [0]).1 :=
  c9_fold_prune ["function f", "x", "end"] [0] 0 (by decide)

/-! Claim C4: section splitting and default names. -/

/-- C4 counterexample: for the document made of an empty block, the
separator and the block "foo", the only emitted section is named from the
raw split index ("Section 2"), not from its 1-based index among the
emitted non-empty blocks, which would give "Section 1". -/
theorem c4_counterexample :
    (parse_script_content "\n---\nfoo").map (fun p => p.1) = ["Section 2"] ∧
    (parse_script_content "\n---\nfoo").map (fun p => p.1) ≠ ["Section 1"] := by
  decide

/-- C4 amended: the splitter splits on the exact separator, trims each
block and discards empty blocks, but an emitted block without a name
header is named "Section N" where N is one plus the raw split index of
the block, counting discarded empty blocks, not the block's 1-based index
among the emitted blocks. -/
theorem c4_amended_default_name (content : String) (i : Nat) (b : String)
    (hb : (splitDocument content)[i]? = some b)
    (hne : strip b ≠ "")
    (hnm : findNameHeader (strip b) = none) :
    ("Section " ++ natToStr (i + 1), buildSection (splitLines (strip b))) ∈
      parse_script_content content := by
  unfold parse_script_content
  apply List.mem_filterMap.mpr
  refine ⟨(i, b), ?_, ?_⟩
  · exact List.mk_mem_enum_iff_getElem?.mpr hb
  · have hne2 : (strip b == "") = false := beq_eq_false_iff_ne.mpr hne
    simp [hne2, hnm]

/-- Witness for C4 at a one-block document without a name header. -/
theorem c4_witness :
    ("Section " ++ natToStr (0 + 1), buildSection (splitLines (strip "foo"))) ∈
      parse_script_content "foo" :=
  c4_amended_default_name "foo" 0 "foo" (by decide) (by decide) (by decide)

/-! Claim C5: the function_call alias. -/

/-- C5 counterexample: inside a conditional's true branch a line whose
first matching rule is the function_call alias keeps the raw rule name:
the branch node's type is "function_call", not "function". -/
theorem c5_counterexample :
    (buildSection ["if X", "true:", "call foo", "endif"]).1.map (fun n => n.type) =
      ["if_show_variant", "function_call"] ∧
    ("function_call" : String) ≠ "function" := by decide

/-- C5 amended: the function_call alias is normalized to "function" only
for main-line nodes; a branch line whose first matching rule is
function_call produces a node typed "function_call" because
process_branch skips the normalization. -/
theorem c5_amended_alias (line : String) (c : Nat) (st : BState)
    (h : classifyRule line = some "function_call")
    (hb : strip line ≠ "")
    (hig : isIgnored line = false) :
    (process_branch [line] c).1.map (fun n => n.type) = ["function_call"] ∧
    (stepRun st (Run.normal line)).nodes.map (fun n => n.type) =
      st.nodes.map (fun n => n.type) ++ ["function"] := by
  have hb2 : (strip line == "") = false := beq_eq_false_iff_ne.mpr hb
  constructor
  · simp [process_branch, hb2, classifyBranch, h]
  · simp [stepRun, hig, classifyMain, h]

/-- Witness for C5 at a branch call-site line. -/
theorem c5_witness :
    (process_branch ["call foo"] 0).1.map (fun n => n.type) = ["function_call"] ∧
    (stepRun initState (Run.normal "call foo")).nodes.map (fun n => n.type) =
      initState.nodes.map (fun n => n.type) ++ ["function"] :=
  c5_amended_alias "call foo" 0 initState (by decide) (by decide) (by decide)

/-! Claim C6: ignore-pattern precedence. -/

/-- C6 counterexample: a branch line matching the name-header ignore
pattern still produces a node: the conditional whose true branch is a
name header yields two nodes, the second carrying the ignored line. -/
theorem c6_counterexample :
    isIgnored "name: hero" = true ∧
    (buildSection ["if X", "true:", "name: hero", "endif"]).1.map
      (fun n => n.content) = ["if X", "name: hero"] := by decide

/-- C6 amended: a line matching an ignore pattern is dropped on the main
line, but branch processing drops exactly the blank lines, so a branch
line matching a non-blank ignore pattern still creates its node. -/
theorem c6_amended_ignore (line : String) (st : BState) (blk : List String)
    (c : Nat) (h : isIgnored line = true) :
    stepRun st (Run.normal line) = st ∧
    (process_branch blk c).1.map (fun n => n.content) =
      blk.filter (fun l => !(strip l == "")) := by
  constructor
  · simp [stepRun, h]
  · induction blk generalizing c with
    | nil => simp [process_branch]
    | cons x rest ih =>
      by_cases hx : strip x = ""
      · have hx2 : (strip x == "") = true := beq_iff_eq.mpr hx
        simp [process_branch, hx2, List.filter_cons, ih c]
      · have hx2 : (strip x == "") = false := beq_eq_false_iff_ne.mpr hx
        simp [process_branch, hx2, List.filter_cons, ih (c + 1)]

/-- Witness for C6 at a name-header line inside a branch. -/
theorem c6_witness :
    stepRun initState (Run.normal "name: hero") = initState ∧
    (process_branch ["name: hero"] 0).1.map (fun n => n.content) =
      ["name: hero"].filter (fun l => !(strip l == "")) :=
  c6_amended_ignore "name: hero" initState ["name: hero"] 0 (by decide)

/-! Claim C7: the jump-target replacement span. -/

/-- C7 counterexample: with the line "Jump To xyz" and the cursor right
after the marker the jump context is active, yet selecting "Foo" replaces
through the end of the line, destroying the text after the cursor,
instead of replacing the span that ends at the cursor offset. -/
theorem c7_counterexample :
    isJumpContext "Jump To xyz" 8 = true ∧
    insertAutocompleteItem "Jump To xyz" 8 "Foo" = "Jump To Foo" ∧
    insertAutocompleteItem "Jump To xyz" 8 "Foo" ≠
      takeStr "Jump To xyz" 8 ++ "Foo" ++ dropStr "Jump To xyz" 8 := by decide

/-- C7 amended: in an active jump context the marker occurs in the line,
and selecting a candidate replaces the text from the end of the last
(rightmost, case-insensitive) occurrence of the marker through the end of
the line — not through the cursor offset — with the candidate text. -/
theorem c7_amended_jump_replace (line : String) (cursorPos : Nat) (item : String)
    (hpos : cursorPos ≤ line.data.length)
    (h : isJumpContext line cursorPos = true) :
    ∃ p, rfindJump line = some p ∧
      insertAutocompleteItem line cursorPos item =
        takeStr line (p + jumpMarker.data.length) ++ item := by
  have hsuf : "jump to ".data <:+ (lowerData line).take cursorPos := by
    have := List.isSuffixOf_iff_suffix.mp h
    simpa [isJumpContext, lowerData, takeStr, List.map_take] using this
  obtain ⟨pre, hpre⟩ := hsuf
  have hlen : pre.length + "jump to ".data.length = cursorPos := by
    have := congrArg List.length hpre
    simp only [List.length_append, List.length_take] at this
    rw [this]
    have hll : (lowerData line).length = line.data.length := by
      simp [lowerData]
    omega
  have hmem : pre.length ∈ (List.range (line.data.length + 1)).filter
      (fun i => "jump to ".data.isPrefixOf ((lowerData line).drop i)) := by
    apply List.mem_filter.mpr
    refine ⟨List.mem_range.mpr (by omega), ?_⟩
    apply List.isPrefixOf_iff_prefix.mpr
    have hdrop : (lowerData line).drop pre.length =
        "jump to ".data ++ (lowerData line).drop cursorPos := by
      conv_lhs => rw [← List.take_append_drop cursorPos (lowerData line), ← hpre]
      rw [List.drop_append_eq_append_drop]
      simp [List.drop_append_eq_append_drop, Nat.sub_self]
    rw [hdrop]
    exact List.prefix_append _ _
  have hne : (List.range (line.data.length + 1)).filter
      (fun i => "jump to ".data.isPrefixOf ((lowerData line).drop i)) ≠ [] :=
    List.ne_nil_of_mem hmem
  have hsome : ∃ p, rfindJump line = some p := by
    unfold rfindJump
    rw [List.getLast?_eq_getLast _ hne]
    exact ⟨_, rfl⟩
  obtain ⟨p, hp⟩ := hsome
  exact ⟨p, hp, by simp [insertAutocompleteItem, hp]⟩

/-- Witness for C7 with the cursor right after the marker. -/
theorem c7_witness :
    ∃ p, rfindJump "Jump To Start" = some p ∧
      insertAutocompleteItem "Jump To Start" 8 "StartDialogue" =
        takeStr "Jump To Start" (p + jumpMarker.data.length) ++ "StartDialogue" :=
  c7_amended_jump_replace "Jump To Start" 8 "StartDialogue" (by decide) (by decide)

/-! Claim C10: consecutive conditional runs. -/

/-- State of the run-processing loop after a list of runs. -/
def foldRuns (rs : List Run) : BState := rs.foldl stepRun initState

theorem stepRun_normal_ignored (st : BState) (line : String)
    (h : isIgnored line = true) : stepRun st (Run.normal line) = st := by
  simp [stepRun, h]

theorem stepRun_normal_conns (st : BState) (line : String)
    (h : isIgnored line = false) :
    (stepRun st (Run.normal line)).conns =
      st.conns ++ st.condEnds.map (fun ce => (ce.id, idStr st.counter)) ++
      (match st.prev with
       | some p => if st.condEnds.isEmpty then [(p.id, idStr st.counter)] else []
       | none => []) := by
  simp [stepRun, h]

theorem foldl_ignored : ∀ (igns : List String),
    (∀ l ∈ igns, isIgnored l = true) →
    ∀ st : BState, (igns.map Run.normal).foldl stepRun st = st
  | [], _, st => rfl
  | x :: xs, hig, st => by
    rw [List.map_cons, List.foldl_cons,
      stepRun_normal_ignored st x (hig x (List.mem_cons_self _ _))]
    exact foldl_ignored xs (fun l hl => hig l (List.mem_cons_of_mem _ hl)) st

theorem parseCond_head_id (blk : List String) (s : Nat) (n0 : Node) (tl : List Node)
    (hn : (parseConditionalBlock blk s).nodes = n0 :: tl) : n0.id = idStr s := by
  have hids := parseCond_ids blk s
  rw [hn, List.length_cons, List.range'_succ] at hids
  simp only [List.map_cons] at hids
  injection hids

theorem parseCond_len_pos (l0 : String) (rest : List String) (s : Nat) :
    0 < (parseConditionalBlock (l0 :: rest) s).nodes.length := by
  simp [parseConditionalBlock]

theorem parseCond_conns_tgt_ge (blk : List String) (s : Nat) (e : Conn)
    (he : e ∈ (parseConditionalBlock blk s).conns) :
    ∃ k, s + 1 ≤ k ∧ e.2 = idStr k := by
  obtain ⟨-, ⟨n, hn, hid⟩⟩ := parseCond_conns blk s e he
  have h1 : n.id ∈ ((parseConditionalBlock blk s).nodes.map (fun x => x.id)).tail := by
    have : n.id ∈ (parseConditionalBlock blk s).nodes.tail.map (fun x => x.id) :=
      List.mem_map.mpr ⟨n, hn, rfl⟩
    rwa [List.map_tail] at this
  rw [parseCond_ids blk s] at h1
  cases hlen : (parseConditionalBlock blk s).nodes.length with
  | zero => rw [hlen] at h1; simp at h1
  | succ m =>
    rw [hlen, List.range'_succ, List.map_cons, List.tail_cons] at h1
    obtain ⟨k, hk, he2⟩ := List.mem_map.mp h1
    have hr := List.mem_range'_1.mp hk
    exact ⟨k, hr.1, by rw [← hid, ← he2]⟩

theorem inv_conns_tgt_lt (st : BState) (h : Inv st) (e : Conn)
    (he : e ∈ st.conns) : ∃ k, k < st.counter ∧ e.2 = idStr k := by
  obtain ⟨-, ⟨n, hn, hid⟩⟩ := h.connsMem e he
  have h1 : n.id ∈ st.nodes.map (fun x => x.id) := List.mem_map.mpr ⟨n, hn, rfl⟩
  rw [h.ids] at h1
  obtain ⟨k, hk, he2⟩ := List.mem_map.mp h1
  exact ⟨k, List.mem_range.mp hk, by rw [← hid, ← he2]⟩

theorem stepRun_conns_ext (st : BState) (r : Run) :
    ∃ ex, (stepRun st r).conns = st.conns ++ ex ∧
      (∀ e ∈ ex, ∃ k, st.counter ≤ k ∧ e.2 = idStr k) ∧
      st.counter ≤ (stepRun st r).counter := by
  cases r with
  | normal line =>
    by_cases h : isIgnored line
    · refine ⟨[], by simp [stepRun_normal_ignored st line h], by simp, ?_⟩
      rw [stepRun_normal_ignored st line h]
    · have h2 : isIgnored line = false := by simpa using h
      refine ⟨st.condEnds.map (fun ce => (ce.id, idStr st.counter)) ++
        (match st.prev with
         | some p => if st.condEnds.isEmpty then [(p.id, idStr st.counter)] else []
         | none => []), ?_, ?_, ?_⟩
      · rw [stepRun_normal_conns st line h2, List.append_assoc]
      · intro e he
        rcases List.mem_append.mp he with he | he
        · obtain ⟨ce, _, hee⟩ := List.mem_map.mp he
          exact ⟨st.counter, le_refl _, by rw [← hee]⟩
        · cases hp : st.prev with
          | none => rw [hp] at he; simp at he
          | some p =>
            rw [hp] at he
            by_cases hce : st.condEnds.isEmpty
            · simp only [hce, if_true, List.mem_singleton] at he
              exact ⟨st.counter, le_refl _, by rw [he]⟩
            · simp [hce] at he
      · simp [stepRun, h2]
  | cond blk =>
    refine ⟨(parseConditionalBlock blk st.counter).conns ++
      (match st.prev, (parseConditionalBlock blk st.counter).nodes with
       | some p, n0 :: _ => [(p.id, n0.id)]
       | _, _ => []), ?_, ?_, ?_⟩
    · rw [stepRun_cond_conns, List.append_assoc]
    · intro e he
      rcases List.mem_append.mp he with he | he
      · obtain ⟨k, hk, he2⟩ := parseCond_conns_tgt_ge blk st.counter e he
        exact ⟨k, by omega, he2⟩
      · cases hp : st.prev with
        | none => rw [hp] at he; simp at he
        | some p =>
          cases hn : (parseConditionalBlock blk st.counter).nodes with
          | nil => rw [hp, hn] at he; simp at he
          | cons n0 tl =>
            rw [hp, hn] at he
            simp at he
            subst he
            exact ⟨st.counter, le_refl _,
              by simp [parseCond_head_id blk st.counter n0 tl hn]⟩
    · rw [stepRun_cond_counter]
      omega

theorem foldl_conns_ext (rs : List Run) : ∀ st : BState,
    ∃ ex, (rs.foldl stepRun st).conns = st.conns ++ ex ∧
      (∀ e ∈ ex, ∃ k, st.counter ≤ k ∧ e.2 = idStr k) ∧
      st.counter ≤ (rs.foldl stepRun st).counter := by
  induction rs with
  | nil => intro st; exact ⟨[], by simp, by simp, le_refl _⟩
  | cons r rs ih =>
    intro st
    obtain ⟨ex1, h1, h2, h3⟩ := stepRun_conns_ext st r
    obtain ⟨ex2, g1, g2, g3⟩ := ih (stepRun st r)
    refine ⟨ex1 ++ ex2, ?_, ?_, ?_⟩
    · rw [List.foldl_cons, g1, h1, List.append_assoc]
    · intro e he
      rcases List.mem_append.mp he with he | he
      · exact h2 e he
      · obtain ⟨k, hk, he2⟩ := g2 e he
        exact ⟨k, le_trans h3 hk, he2⟩
    · rw [List.foldl_cons]
      exact le_trans h3 g3

/-- C10: when a conditional run is immediately followed by another
conditional run, possibly with ignored lines between them, the builder
emits no edge into the second run's condition node, and the join sources
of both runs accumulate: each of them receives an edge to the first
non-ignored normal node that follows, if one exists. -/
theorem c10_consecutive_conditionals
    (lines : List String) (rs0 rest : List Run) (b1 b2 : List String)
    (igns : List String)
    (hsplit : preScan lines =
      rs0 ++ Run.cond b1 :: (igns.map Run.normal ++ Run.cond b2 :: rest))
    (hig : ∀ l ∈ igns, isIgnored l = true)
    (hb2 : b2 ≠ []) :
    (∀ e ∈ (buildSection lines).2,
      e.2 ≠ idStr (stepRun (foldRuns rs0) (Run.cond b1)).counter) ∧
    (∀ (igns2 : List String) (lnorm : String) (rest2 : List Run),
      rest = igns2.map Run.normal ++ Run.normal lnorm :: rest2 →
      (∀ l ∈ igns2, isIgnored l = true) →
      isIgnored lnorm = false →
      ∀ j ∈ optToList (parseConditionalBlock b1 (foldRuns rs0).counter).lastTrue ++
            optToList (parseConditionalBlock b1 (foldRuns rs0).counter).lastFalse ++
            optToList (parseConditionalBlock b2
              (stepRun (foldRuns rs0) (Run.cond b1)).counter).lastTrue ++
            optToList (parseConditionalBlock b2
              (stepRun (foldRuns rs0) (Run.cond b1)).counter).lastFalse,
        (j.id, idStr (stepRun (stepRun (foldRuns rs0) (Run.cond b1))
            (Run.cond b2)).counter) ∈ (buildSection lines).2) := by
  have hf : (preScan lines).foldl stepRun initState =
      rest.foldl stepRun
        (stepRun (stepRun (foldRuns rs0) (Run.cond b1)) (Run.cond b2)) := by
    rw [hsplit, List.foldl_append, List.foldl_cons, List.foldl_append,
      foldl_ignored igns hig, List.foldl_cons]
    rfl
  have hb : (buildSection lines).2 =
      (rest.foldl stepRun
        (stepRun (stepRun (foldRuns rs0) (Run.cond b1)) (Run.cond b2))).conns := by
    simp only [buildSection]
    rw [hf]
  have hprev : (stepRun (foldRuns rs0) (Run.cond b1)).prev = none :=
    stepRun_cond_prev (foldRuns rs0) b1
  constructor
  · intro e he
    rw [hb] at he
    obtain ⟨ex, hex, hexT, -⟩ :=
      foldl_conns_ext rest (stepRun (stepRun (foldRuns rs0) (Run.cond b1)) (Run.cond b2))
    rw [hex] at he
    have hpos : 0 <
        (parseConditionalBlock b2 (stepRun (foldRuns rs0) (Run.cond b1)).counter).nodes.length := by
      match b2, hb2 with
      | l0 :: r2, _ => exact parseCond_len_pos l0 r2 _
    rcases List.mem_append.mp he with he1 | he1
    · rw [stepRun_cond_conns, hprev] at he1
      have hm : (match (none : Option Node),
          (parseConditionalBlock b2 (stepRun (foldRuns rs0) (Run.cond b1)).counter).nodes with
          | some p, n0 :: _ => [(p.id, n0.id)]
          | _, _ => ([] : List Conn)) = [] := by
        cases (parseConditionalBlock b2 (stepRun (foldRuns rs0) (Run.cond b1)).counter).nodes <;> rfl
      rw [hm, List.append_nil] at he1
      rcases List.mem_append.mp he1 with he2 | he2
      · have hinv2 : Inv (stepRun (foldRuns rs0) (Run.cond b1)) :=
          inv_step _ _ (inv_foldl rs0 initState inv_init)
        obtain ⟨k, hk, he3⟩ := inv_conns_tgt_lt _ hinv2 e he2
        rw [he3]
        intro hcontra
        exact absurd (idStr_inj hcontra) (by omega)
      · obtain ⟨k, hk, he3⟩ := parseCond_conns_tgt_ge b2 _ e he2
        rw [he3]
        intro hcontra
        exact absurd (idStr_inj hcontra) (by omega)
    · obtain ⟨k, hk, he3⟩ := hexT e he1
      rw [stepRun_cond_counter] at hk
      rw [he3]
      intro hcontra
      exact absurd (idStr_inj hcontra) (by omega)
  · intro igns2 lnorm rest2 hrest hig2 hln j hj
    subst hrest
    have hF : (buildSection lines).2 =
        (rest2.foldl stepRun
          (stepRun (stepRun (stepRun (foldRuns rs0) (Run.cond b1)) (Run.cond b2))
            (Run.normal lnorm))).conns := by
      rw [hb, List.foldl_append, foldl_ignored igns2 hig2, List.foldl_cons]
    have hj3 : j ∈ (stepRun (stepRun (foldRuns rs0) (Run.cond b1)) (Run.cond b2)).condEnds := by
      rw [stepRun_cond_condEnds, stepRun_cond_condEnds]
      simp only [List.mem_append] at hj ⊢
      tauto
    have hstep : (j.id, idStr (stepRun (stepRun (foldRuns rs0) (Run.cond b1))
        (Run.cond b2)).counter) ∈
        (stepRun (stepRun (stepRun (foldRuns rs0) (Run.cond b1)) (Run.cond b2))
          (Run.normal lnorm)).conns := by
      rw [stepRun_normal_conns _ lnorm hln]
      exact List.mem_append_left _ (List.mem_append_right _
        (List.mem_map.mpr ⟨j, hj3, rfl⟩))
    obtain ⟨ex, hex, -, -⟩ := foldl_conns_ext rest2
      (stepRun (stepRun (stepRun (foldRuns rs0) (Run.cond b1)) (Run.cond b2))
        (Run.normal lnorm))
    rw [hF, hex]
    exact List.mem_append_left _ hstep

/-- Witness for C10 at two adjacent conditionals followed by one normal
line. -/
theorem c10_witness :
    (∀ e ∈ (buildSection ["if A", "endif", "if B", "endif", "x"]).2,
      e.2 ≠ idStr (stepRun (foldRuns []) (Run.cond ["if A", "endif"])).counter) ∧
    (∀ (igns2 : List String) (lnorm : String) (rest2 : List Run),
      ([Run.normal "x"] : List Run) = igns2.map Run.normal ++ Run.normal lnorm :: rest2 →
      (∀ l ∈ igns2, isIgnored l = true) →
      isIgnored lnorm = false →
      ∀ j ∈ optToList (parseConditionalBlock ["if A", "endif"] (foldRuns []).counter).lastTrue ++
            optToList (parseConditionalBlock ["if A", "endif"] (foldRuns []).counter).lastFalse ++
            optToList (parseConditionalBlock ["if B", "endif"]
              (stepRun (foldRuns []) (Run.cond ["if A", "endif"])).counter).lastTrue ++
            optToList (parseConditionalBlock ["if B", "endif"]
              (stepRun (foldRuns []) (Run.cond ["if A", "endif"])).counter).lastFalse,
        (j.id, idStr (stepRun (stepRun (foldRuns []) (Run.cond ["if A", "endif"]))
            (Run.cond ["if B", "endif"])).counter) ∈
          (buildSection ["if A", "endif", "if B", "endif", "x"]).2) :=
  c10_consecutive_conditionals ["if A", "endif", "if B", "endif", "x"]
    [] [Run.normal "x"] ["if A", "endif"] ["if B", "endif"] []
    (by decide) (by simp) (by decide)

end SNEngine
